import Mathlib

/-!
Shallow embedding of `src/xrp.js` (oxecrypto/XRP-Wallet-Tools).

The script has two functions:

* `deriveRippleAddress(mnemonic)`: validates the mnemonic with
  `bip39.validateMnemonic`, throws `Error('Invalid mnemonic')` on failure,
  otherwise expands the mnemonic to a seed (`bip39.mnemonicToSeed`), walks the
  seed through the fixed BIP32 path `m/44'/144'/0'/0/0`
  (`bip32.fromSeedBuffer(seed).derivePath(...)`) and encodes the resulting
  public key as an XRP address (`ripple.deriveAddress`).

* `deriveAddressesFromFile(inputFilePath, outputFilePath)`: counts all lines
  of the input in a first pass, then re-reads the file, and for each line
  trims it, skips it when blank, otherwise derives the address inside a
  per-line try/catch, writing `"<trimmed>|<address>\n"` on success and
  `"<trimmed>|Error deriving address\n"` when the try block threw; after each
  line (blank ones included) it increments `processedLines` and prints
  `Math.floor((processedLines / totalLines) * 100)` percent progress.

The cryptographic primitives live in external libraries (bip39, ripple-bip32,
ripple-keypairs); they are modelled as an abstract environment `CryptoEnv` of
pure capabilities, exactly as the spec treats them (black boxes).  The batch
runner is modelled twice: `deriveAddressesFromFile` over an infallible output
sink (the pure shape of the loop), and `processLinesFallible` over a sink
whose individual writes may fail, mirroring the promise-reject paths of the
`writeStream.write` callbacks.  The counters are modelled as `Nat`; the
progress expression `Math.floor((p / t) * 100)` is modelled as JavaScript
evaluates it, in IEEE-754 binary64 arithmetic: the quotient `p / t` is
rounded to the nearest double (ties to even), the product with 100 is
rounded again, and the floor of the result is taken (`percentOf` below).
This deviates from the exact floor `p * 100 / t`: the program reports 28,
not 29, at `p = 29, t = 100`.
-/

namespace XRPWallet

/-- A 512-bit seed, as the byte buffer `bip39.mnemonicToSeed` returns. -/
abbrev Seed := List Nat

/-- A public key, as the byte buffer `keyPair.publicKey` holds. -/
abbrev PublicKey := List Nat

/-- The two failure kinds of the derivation engine: the explicit
`throw new Error('Invalid mnemonic')` and any exception escaping the
key-derivation step. -/
inductive DeriveError where
  | invalidMnemonic
  | derivationFailure
deriving DecidableEq, Repr

/-- The external cryptographic capabilities consumed by `deriveRippleAddress`:
`bip39.validateMnemonic`, `bip39.mnemonicToSeed`,
`bip32.fromSeedBuffer(...).derivePath(...).keyPair.getKeyPairs()` (which may
throw, modelled as `Except`), and `ripple.deriveAddress`. -/
structure CryptoEnv where
  validateMnemonic : String → Bool
  mnemonicToSeed : String → Seed
  deriveKeyPair : Seed → String → Except String PublicKey
  deriveAddress : PublicKey → String

/-- The observable calls `deriveRippleAddress` makes into the cryptographic
capabilities, recorded in order to reason about which steps run. -/
inductive Step where
  | validate
  | toSeed
  | deriveKey (path : String)
  | encodeAddress
deriving DecidableEq, Repr

/-- The fixed derivation path string of `src/xrp.js` line 19. -/
def ripplePath : String := "m/44'/144'/0'/0/0"

/-- Instrumented embedding of `deriveRippleAddress` (src/xrp.js lines 13-23):
the result together with the ordered calls into the cryptographic
capabilities. -/
def deriveRippleAddressSteps (env : CryptoEnv) (mnemonic : String) :
    Except DeriveError String × List Step :=
  if env.validateMnemonic mnemonic then
    match env.deriveKeyPair (env.mnemonicToSeed mnemonic) ripplePath with
    | Except.error _ =>
        (Except.error DeriveError.derivationFailure,
          [Step.validate, Step.toSeed, Step.deriveKey ripplePath])
    | Except.ok publicKey =>
        (Except.ok (env.deriveAddress publicKey),
          [Step.validate, Step.toSeed, Step.deriveKey ripplePath,
            Step.encodeAddress])
  else
    (Except.error DeriveError.invalidMnemonic, [Step.validate])

/-- Embedding of `deriveRippleAddress`: mnemonic text to address text or
failure. -/
def deriveRippleAddress (env : CryptoEnv) (mnemonic : String) :
    Except DeriveError String :=
  (deriveRippleAddressSteps env mnemonic).1

/-- One segment of a hierarchical derivation path: a child index and whether
derivation at that level is hardened. -/
structure PathSegment where
  index : Nat
  hardened : Bool
deriving DecidableEq, Repr

/-- Split a character list on the slash separator, keeping the order of the
resulting segments. -/
def splitSegments : List Char → List (List Char)
  | [] => [[]]
  | c :: rest =>
    if c = '/' then [] :: splitSegments rest
    else
      match splitSegments rest with
      | [] => [[c]]
      | segment :: segments => (c :: segment) :: segments

/-- The numeric value of a decimal digit character. -/
def charDigit (c : Char) : Option Nat :=
  if '0' ≤ c ∧ c ≤ '9' then some (c.toNat - 48) else none

/-- Read a nonempty run of decimal digits as a number, most significant
first. -/
def digitsToNat (acc : Nat) : List Char → Option Nat
  | [] => some acc
  | c :: rest =>
    match charDigit c with
    | none => none
    | some d => digitsToNat (acc * 10 + d) rest

/-- Read a whole character list as a decimal number; empty lists carry no
number. -/
def readNat (cs : List Char) : Option Nat :=
  if cs.isEmpty then none else digitsToNat 0 cs

/-- Modelled from the spec: how the external BIP32 library reads one segment
of a path string (src/xrp.js passes the string to `derivePath`, whose parser
is library code outside this repository): a decimal child index, with a
trailing apostrophe marking hardened derivation. -/
def parseSegment (cs : List Char) : Option PathSegment :=
  match cs.reverse with
  | [] => none
  | last :: headRev =>
    if last = '\'' then
      (readNat headRev.reverse).map fun n => { index := n, hardened := true }
    else
      (readNat cs).map fun n => { index := n, hardened := false }

/-- Modelled from the spec: a whole path string, split on `/` and rooted at
`m`, read as a list of path segments. -/
def parsePath (cs : List Char) : Option (List PathSegment) :=
  match splitSegments cs with
  | ['m'] :: segments => segments.mapM parseSegment
  | _ => none

/-- A concrete environment used to evaluate the model on closed inputs: every
mnemonic other than `"bad"` validates, the seed is the mnemonic's length, key
derivation echoes the seed, and the address is `r` followed by the first seed
byte. -/
def testEnv : CryptoEnv where
  validateMnemonic := fun m => m != "bad"
  mnemonicToSeed := fun m => [m.length]
  deriveKeyPair := fun seed _path => Except.ok seed
  deriveAddress := fun publicKey => "r" ++ toString (publicKey.headD 0)

/-- A second concrete environment, rejecting every mnemonic; used to observe
that blank-line handling never consults the cryptographic capabilities. -/
def rejectAllEnv : CryptoEnv where
  validateMnemonic := fun _ => false
  mnemonicToSeed := fun _ => []
  deriveKeyPair := fun _ _ => Except.error "unreachable"
  deriveAddress := fun _ => ""

example : deriveRippleAddress testEnv "good" = Except.ok "r4" := rfl

example : deriveRippleAddress testEnv "bad"
    = Except.error DeriveError.invalidMnemonic := rfl

example : parsePath ripplePath.toList = some
    [⟨44, true⟩, ⟨144, true⟩, ⟨0, true⟩, ⟨0, false⟩, ⟨0, false⟩] := by decide

/-- C1: the derivation pipeline is deterministic: for a valid mnemonic, two
invocations of `deriveRippleAddress` on the same mnemonic text (against the
same cryptographic capabilities) that return addresses return equal address
strings. -/
theorem derive_deterministic (env : CryptoEnv) (m : String)
    (_hv : env.validateMnemonic m = true) (a1 a2 : String)
    (h1 : deriveRippleAddress env m = Except.ok a1)
    (h2 : deriveRippleAddress env m = Except.ok a2) : a1 = a2 := by
  rw [h1] at h2
  exact Except.ok.inj h2

/-- Witness for C1 at the concrete environment `testEnv` and mnemonic
`"good"`. -/
theorem derive_deterministic_witness :
    deriveRippleAddress testEnv "good" = Except.ok "r4" ∧ "r4" = "r4" :=
  ⟨rfl, derive_deterministic testEnv "good" rfl "r4" "r4" rfl rfl⟩

/-- C3: for a mnemonic failing validation, `deriveRippleAddress` fails with
the invalid-mnemonic error, the seed-expansion step never runs, and the
key-derivation step is never invoked. -/
theorem validation_gate (env : CryptoEnv) (m : String)
    (hv : env.validateMnemonic m = false) :
    deriveRippleAddress env m = Except.error DeriveError.invalidMnemonic ∧
    Step.toSeed ∉ (deriveRippleAddressSteps env m).2 ∧
    ∀ p, Step.deriveKey p ∉ (deriveRippleAddressSteps env m).2 := by
  refine ⟨?_, ?_, ?_⟩ <;>
    simp [deriveRippleAddress, deriveRippleAddressSteps, hv]

/-- Witness for C3 at the concrete environment `testEnv` and the rejected
mnemonic `"bad"`. -/
theorem validation_gate_witness :
    deriveRippleAddress testEnv "bad"
      = Except.error DeriveError.invalidMnemonic ∧
    Step.toSeed ∉ (deriveRippleAddressSteps testEnv "bad").2 ∧
    ∀ p, Step.deriveKey p ∉ (deriveRippleAddressSteps testEnv "bad").2 :=
  validation_gate testEnv "bad" rfl

/-- C4: for a valid mnemonic the pipeline expands the mnemonic to a seed,
invokes key derivation exactly on the fixed path `m/44'/144'/0'/0/0` (whose
segments are purpose 44 hardened, coin 144 hardened, account 0 hardened,
change 0, index 0) and no other path, and encodes the resulting public key as
the address. -/
theorem fixed_derivation_path (env : CryptoEnv) (m : String)
    (hv : env.validateMnemonic m = true) :
    Step.toSeed ∈ (deriveRippleAddressSteps env m).2 ∧
    Step.deriveKey ripplePath ∈ (deriveRippleAddressSteps env m).2 ∧
    (∀ p, Step.deriveKey p ∈ (deriveRippleAddressSteps env m).2 →
      p = ripplePath) ∧
    parsePath ripplePath.toList = some
      [⟨44, true⟩, ⟨144, true⟩, ⟨0, true⟩, ⟨0, false⟩, ⟨0, false⟩] ∧
    ∀ pk, env.deriveKeyPair (env.mnemonicToSeed m) ripplePath = Except.ok pk →
      deriveRippleAddress env m = Except.ok (env.deriveAddress pk) := by
  refine ⟨?_, ?_, ?_, by decide, ?_⟩
  · cases h : env.deriveKeyPair (env.mnemonicToSeed m) ripplePath <;>
      simp [deriveRippleAddressSteps, hv, h]
  · cases h : env.deriveKeyPair (env.mnemonicToSeed m) ripplePath <;>
      simp [deriveRippleAddressSteps, hv, h]
  · intro p hp
    cases h : env.deriveKeyPair (env.mnemonicToSeed m) ripplePath <;>
      rw [deriveRippleAddressSteps, if_pos hv, h] at hp <;>
      simpa using hp
  · intro pk hpk
    simp [deriveRippleAddress, deriveRippleAddressSteps, hv, hpk]

/-- Witness for C4 at the concrete environment `testEnv` and mnemonic
`"good"`. -/
theorem fixed_derivation_path_witness :
    Step.deriveKey ripplePath ∈ (deriveRippleAddressSteps testEnv "good").2 ∧
    deriveRippleAddress testEnv "good" = Except.ok "r4" :=
  ⟨(fixed_derivation_path testEnv "good" rfl).2.1,
    (fixed_derivation_path testEnv "good" rfl).2.2.2.2 [4] rfl⟩

/-! ## The batch runner (src/xrp.js lines 33-92), infallible-sink model

The loop body of `deriveAddressesFromFile` over a list of input lines, with
the output sink modelled as the list of records written so far (each
`writeStream.write` succeeding) and the progress reports collected in
order. -/

/-- Modelled from the spec: JavaScript's `String.prototype.trim` builtin
(`line.trim()` on src/xrp.js line 57 is host-language library code outside
this repository) removes white space from both ends; the white-space
characters occurring in line-oriented text. -/
def isJsWhitespace (c : Char) : Bool :=
  c = ' ' || c = '\t' || c = '\n' || c = '\r' || c = '\x0B' || c = '\x0C'

/-- Drop white space from both ends of a character list. -/
def trimChars (cs : List Char) : List Char :=
  ((cs.dropWhile isJsWhitespace).reverse.dropWhile isJsWhitespace).reverse

/-- Modelled from the spec: `line.trim()`, over the line's characters. -/
def trimLine (line : String) : String :=
  String.mk (trimChars line.toList)

/-- The literal sentinel written on a caught per-line error
(src/xrp.js line 71). -/
def errorMarker : String := "Error deriving address"

/-- The record the loop writes for one trimmed non-blank mnemonic: the
try/catch of src/xrp.js lines 59-76 writes `"<mnemonic>|<address>\n"` when
`deriveRippleAddress` returns, `"<mnemonic>|Error deriving address\n"` when
it throws. -/
def recordFor (env : CryptoEnv) (mnemonic : String) : String :=
  match deriveRippleAddress env mnemonic with
  | Except.ok address => mnemonic ++ "|" ++ address ++ "\n"
  | Except.error _ => mnemonic ++ "|" ++ errorMarker ++ "\n"

/-- The mutable state of the processing pass: the `processedLines` counter,
the records written to the output sink in order, and the
`(percent, processed, total)` progress reports printed after each line. -/
structure RunState where
  processed : Nat
  output : List String
  progress : List (Nat × Nat × Nat)
deriving DecidableEq, Repr

/-- Counters and sink at the start of the processing pass. -/
def initialState : RunState :=
  { processed := 0, output := [], progress := [] }

/-- Base-two logarithm of a natural number by repeated halving, with
explicit fuel; the number itself is always enough fuel. -/
def natLog2F : Nat → Nat → Nat
  | 0, _ => 0
  | fuel + 1, n => if 2 ≤ n then natLog2F fuel (n / 2) + 1 else 0

/-- The integer part of the base-two logarithm of a positive natural
number. -/
def natLog2 (n : Nat) : Nat := natLog2F n n

/-- The integer part of the base-two logarithm of the positive fraction
`a / b`. -/
def fracLog2 (a b : Nat) : Int :=
  if b ≤ a then (natLog2 (a / b) : Int)
  else if b = a * 2 ^ natLog2 (b / a) then -(natLog2 (b / a) : Int)
  else -(natLog2 (b / a) : Int) - 1

/-- Round the fraction `num / den` to the nearest integer, ties to the even
neighbour — the rounding IEEE 754 prescribes for binary64 results. -/
def roundHalfEvenNat (num den : Nat) : Nat :=
  if 2 * (num % den) < den then num / den
  else if den < 2 * (num % den) then num / den + 1
  else if num / den % 2 = 0 then num / den else num / den + 1

/-- Round the fraction `a / b` scaled by `2 ^ s` to the nearest integer,
ties to even. -/
def roundAtScale (a b : Nat) : Int → Nat
  | Int.ofNat n => roundHalfEvenNat (a * 2 ^ n) b
  | Int.negSucc n => roundHalfEvenNat a (b * 2 ^ (n + 1))

/-- The IEEE-754 binary64 value nearest the positive fraction `a / b`, as a
pair `(mantissa, exponent)` with value `mantissa * 2 ^ exponent` and a
53-bit mantissa.  JavaScript numbers — src/xrp.js line 82 computes with
them — are binary64; this rounding is host-language semantics outside the
repository.  The exponent range is unbounded here, faithful away from
subnormals and overflow, which the program's percentage arithmetic never
reaches. -/
def floatRoundFrac (a b : Nat) : Nat × Int :=
  (roundAtScale a b (52 - fracLog2 a b), fracLog2 a b - 52)

/-- The rational value of a `(mantissa, exponent)` pair. -/
def fracVal (d : Nat × Int) : ℚ := (d.1 : ℚ) * (2 : ℚ) ^ d.2

/-- The product `m * k * 2 ^ e` as a fraction of naturals. -/
def mulPow2Frac (m : Nat) (e : Int) (k : Nat) : Nat × Nat :=
  match e with
  | Int.ofNat n => (m * k * 2 ^ n, 1)
  | Int.negSucc n => (m * k, 2 ^ (n + 1))

/-- The floor of `m * 2 ^ e`. -/
def floorDyadic (m : Nat) : Int → Nat
  | Int.ofNat n => m * 2 ^ n
  | Int.negSucc n => m / 2 ^ (n + 1)

/-- The double nearest `(processed / total) * 100` as JavaScript computes
it: the quotient is rounded to the nearest double, then the product of that
double with 100 (exact as a rational) is rounded again. -/
def jsPercentPipeline (processed total : Nat) : Nat × Int :=
  floatRoundFrac
    (mulPow2Frac (floatRoundFrac processed total).1
      (floatRoundFrac processed total).2 100).1
    (mulPow2Frac (floatRoundFrac processed total).1
      (floatRoundFrac processed total).2 100).2

/-- The progress percentage of src/xrp.js line 82,
`Math.floor((processedLines / totalLines) * 100)`, computed as the program
computes it in IEEE-754 binary64: round `processed / total` to the nearest
double, multiply by 100 and round the product, then take the floor.
Operand conversion to double is exact for counters below `2 ^ 53`, which
covers every reachable line count. -/
def percentOf (processed total : Nat) : Nat :=
  if processed = 0 ∨ total = 0 then 0
  else
    floorDyadic (jsPercentPipeline processed total).1
      (jsPercentPipeline processed total).2

example : percentOf 29 100 = 28 := by decide

example : percentOf 57 100 = 56 := by decide

example : percentOf 30 100 = 30 := by decide

example : percentOf 100 100 = 100 := by decide

example : percentOf 1 3 = 33 := by decide

/-- One iteration of the `for await (const line of rl2)` loop (src/xrp.js
lines 56-84): trim, write a record unless the trimmed line is blank,
increment `processedLines`, report progress. -/
def processLine (env : CryptoEnv) (total : Nat) (st : RunState)
    (line : String) : RunState :=
  let mnemonic := trimLine line
  let st1 :=
    if mnemonic = "" then st
    else { st with output := st.output ++ [recordFor env mnemonic] }
  { st1 with
      processed := st1.processed + 1,
      progress := st1.progress ++
        [(percentOf (st1.processed + 1) total, st1.processed + 1, total)] }

/-- The whole processing pass over the input lines in order. -/
def processLines (env : CryptoEnv) (total : Nat) (st : RunState) :
    List String → RunState
  | [] => st
  | line :: rest => processLines env total (processLine env total st line) rest

/-- The counting pass (src/xrp.js line 47): `rl.on('line', (line) =>
totalLines++)` increments the counter once per line, blank or not, and does
nothing else. -/
def countLines : List String → Nat
  | [] => 0
  | _ :: rest => countLines rest + 1

/-- Embedding of `deriveAddressesFromFile` over the sequence of input lines:
the counting pass establishes the total, then the processing pass runs from
fresh counters. -/
def deriveAddressesFromFile (env : CryptoEnv) (lines : List String) :
    RunState :=
  processLines env (countLines lines) initialState lines

/-- The input lines that survive the blank-line skip of src/xrp.js
line 58. -/
def nonBlankLines (lines : List String) : List String :=
  lines.filter fun line => trimLine line != ""

/-- The records the spec expects on the output sink: one per non-blank line,
in input order. -/
def expectedOutput (env : CryptoEnv) (lines : List String) : List String :=
  (nonBlankLines lines).map fun line => recordFor env (trimLine line)

/-- The progress reports the spec expects: one per line, numerator advancing
from `start`. -/
def expectedProgress (total : Nat) : Nat → List String → List (Nat × Nat × Nat)
  | _, [] => []
  | start, _ :: rest =>
    (percentOf (start + 1) total, start + 1, total) ::
      expectedProgress total (start + 1) rest

lemma processLine_blank (env : CryptoEnv) (total : Nat) (st : RunState)
    (line : String) (h : trimLine line = "") :
    processLine env total st line =
      { st with
          processed := st.processed + 1,
          progress := st.progress ++
            [(percentOf (st.processed + 1) total, st.processed + 1, total)] } := by
  simp [processLine, h]

lemma processLine_nonblank (env : CryptoEnv) (total : Nat) (st : RunState)
    (line : String) (h : ¬ trimLine line = "") :
    processLine env total st line =
      { processed := st.processed + 1,
        output := st.output ++ [recordFor env (trimLine line)],
        progress := st.progress ++
          [(percentOf (st.processed + 1) total, st.processed + 1, total)] } := by
  simp [processLine, h]

lemma processLines_state (env : CryptoEnv) (total : Nat) (lines : List String) :
    ∀ st : RunState,
      processLines env total st lines =
        { processed := st.processed + lines.length,
          output := st.output ++ expectedOutput env lines,
          progress := st.progress ++ expectedProgress total st.processed lines } := by
  induction lines with
  | nil => intro st; simp [processLines, expectedOutput, nonBlankLines, expectedProgress]
  | cons line rest ih =>
    intro st
    by_cases h : trimLine line = ""
    · rw [processLines, processLine_blank env total st line h, ih]
      simp [expectedOutput, nonBlankLines, expectedProgress, h]
      omega
    · rw [processLines, processLine_nonblank env total st line h, ih]
      simp [expectedOutput, nonBlankLines, expectedProgress, h]
      omega

lemma countLines_length (lines : List String) : countLines lines = lines.length := by
  induction lines with
  | nil => rfl
  | cons line rest ih => simp [countLines, ih]

lemma deriveAddressesFromFile_eq (env : CryptoEnv) (lines : List String) :
    deriveAddressesFromFile env lines =
      { processed := lines.length,
        output := expectedOutput env lines,
        progress := expectedProgress (countLines lines) 0 lines } := by
  rw [deriveAddressesFromFile, processLines_state]
  simp [initialState]

lemma recordFor_shape (env : CryptoEnv) (m : String) :
    ∃ tail, recordFor env m = m ++ "|" ++ tail := by
  cases h : deriveRippleAddress env m with
  | ok address =>
    refine ⟨address ++ "\n", ?_⟩
    rw [recordFor, h]
    exact String.append_assoc (m ++ "|") address "\n"
  | error e =>
    refine ⟨errorMarker ++ "\n", ?_⟩
    rw [recordFor, h]
    exact String.append_assoc (m ++ "|") errorMarker "\n"

lemma expectedProgress_get (total : Nat) (lines : List String) :
    ∀ start i : Nat, i < lines.length →
      (expectedProgress total start lines).get? i
        = some (percentOf (start + i + 1) total, start + i + 1, total) := by
  induction lines with
  | nil => intro start i h; simp at h
  | cons line rest ih =>
    intro start i h
    cases i with
    | zero => simp [expectedProgress]
    | succ j =>
      have hj : j < rest.length := by simpa using h
      have := ih (start + 1) j hj
      have harith : start + 1 + j = start + (j + 1) := by omega
      rw [expectedProgress, List.get?_cons_succ, this, harith]

lemma mem_expectedProgress (total : Nat) (lines : List String) :
    ∀ (start : Nat) (entry : Nat × Nat × Nat),
      entry ∈ expectedProgress total start lines →
      ∃ j, j < lines.length ∧
        entry = (percentOf (start + j + 1) total, start + j + 1, total) := by
  induction lines with
  | nil => intro start entry h; simp [expectedProgress] at h
  | cons line rest ih =>
    intro start entry h
    rw [expectedProgress, List.mem_cons] at h
    rcases h with h | h
    · exact ⟨0, by simp, h⟩
    · obtain ⟨j, hj, hentry⟩ := ih (start + 1) entry h
      refine ⟨j + 1, by simpa using Nat.succ_lt_succ hj, ?_⟩
      rw [hentry]
      have harith : start + 1 + j = start + (j + 1) := by omega
      rw [harith]

lemma natLog2F_spec : ∀ fuel n : Nat, 1 ≤ n → n ≤ fuel →
    2 ^ natLog2F fuel n ≤ n ∧ n < 2 ^ (natLog2F fuel n + 1) := by
  intro fuel
  induction fuel with
  | zero => intro n h1 h2; exact absurd (le_trans h1 h2) (by omega)
  | succ fuel ih =>
    intro n h1 h2
    rw [natLog2F]
    by_cases h : 2 ≤ n
    · rw [if_pos h]
      obtain ⟨hlow, hhigh⟩ := ih (n / 2) (by omega) (by omega)
      have hp1 : 2 ^ (natLog2F fuel (n / 2) + 1) = 2 ^ natLog2F fuel (n / 2) * 2 :=
        pow_succ 2 (natLog2F fuel (n / 2))
      have hp2 : 2 ^ (natLog2F fuel (n / 2) + 1 + 1)
          = 2 ^ (natLog2F fuel (n / 2) + 1) * 2 :=
        pow_succ 2 (natLog2F fuel (n / 2) + 1)
      omega
    · rw [if_neg h]
      simp only [pow_zero, pow_one]
      omega

lemma natLog2_spec (n : Nat) (h : 1 ≤ n) :
    2 ^ natLog2 n ≤ n ∧ n < 2 ^ (natLog2 n + 1) :=
  natLog2F_spec n n h le_rfl

lemma fracLog2_le (a b : Nat) (ha : 1 ≤ a) (hb : 1 ≤ b) :
    (2 : ℚ) ^ fracLog2 a b ≤ (a : ℚ) / b := by
  have hbQ : (0 : ℚ) < (b : ℚ) := by exact_mod_cast hb
  rw [fracLog2]
  by_cases hba : b ≤ a
  · rw [if_pos hba]
    have hdiv : 1 ≤ a / b := (Nat.one_le_div_iff (by omega)).mpr hba
    have hspec := (natLog2_spec (a / b) hdiv).1
    have hk : 2 ^ natLog2 (a / b) * b ≤ a :=
      le_trans (Nat.mul_le_mul_right b hspec) (Nat.div_mul_le_self a b)
    rw [zpow_natCast, le_div_iff hbQ]
    exact_mod_cast hk
  · rw [if_neg hba]
    have hdiv : 1 ≤ b / a := (Nat.one_le_div_iff (by omega)).mpr (by omega)
    by_cases htie : b = a * 2 ^ natLog2 (b / a)
    · rw [if_pos htie]
      have hcast : (b : ℚ) = (a : ℚ) * (2 : ℚ) ^ natLog2 (b / a) := by
        exact_mod_cast htie
      have h2p : ((2 : ℚ) ^ natLog2 (b / a)) ≠ 0 := by positivity
      rw [zpow_neg, zpow_natCast, le_div_iff hbQ, hcast,
        mul_comm (a : ℚ) ((2 : ℚ) ^ natLog2 (b / a)), ← mul_assoc,
        inv_mul_cancel₀ h2p, one_mul]
    · rw [if_neg htie]
      have hub : b / a < 2 ^ (natLog2 (b / a) + 1) := (natLog2_spec (b / a) hdiv).2
      have hnat : b ≤ a * 2 ^ (natLog2 (b / a) + 1) := by
        have hmod := Nat.div_add_mod b a
        have hmlt : b % a < a := Nat.mod_lt b (by omega)
        have hmul : a * (b / a + 1) ≤ a * 2 ^ (natLog2 (b / a) + 1) :=
          Nat.mul_le_mul_left a hub
        have hsplit : a * (b / a + 1) = a * (b / a) + a := by ring
        omega
      have hzp : (2 : ℚ) ^ (-(natLog2 (b / a) : ℤ) - 1)
          = ((2 : ℚ) ^ (natLog2 (b / a) + 1 : ℕ))⁻¹ := by
        rw [← zpow_natCast (2 : ℚ) (natLog2 (b / a) + 1), ← zpow_neg]
        congr 1
        push_cast
        ring
      have h2p : (0 : ℚ) < (2 : ℚ) ^ (natLog2 (b / a) + 1 : ℕ) := by positivity
      rw [hzp, le_div_iff hbQ, inv_mul_le_iff h2p, mul_comm]
      exact_mod_cast hnat

lemma roundHalfEvenNat_close (a b : Nat) (hb : 0 < b) :
    |(roundHalfEvenNat a b : ℚ) - (a : ℚ) / b| ≤ 1 / 2 := by
  have hbQ : (0 : ℚ) < (b : ℚ) := by exact_mod_cast hb
  have hmod : b * (a / b) + a % b = a := Nat.div_add_mod a b
  have hlt : a % b < b := Nat.mod_lt a hb
  have hcast : (b : ℚ) * ((a / b : ℕ) : ℚ) + ((a % b : ℕ) : ℚ) = (a : ℚ) := by
    exact_mod_cast hmod
  have hval : (a : ℚ) / b = ((a / b : ℕ) : ℚ) + ((a % b : ℕ) : ℚ) / b := by
    rw [← hcast]
    field_simp
    ring
  have hr0 : (0 : ℚ) ≤ ((a % b : ℕ) : ℚ) / b := by positivity
  have hr1 : ((a % b : ℕ) : ℚ) / b < 1 := by
    rw [div_lt_one hbQ]
    exact_mod_cast hlt
  rw [roundHalfEvenNat]
  split_ifs with h1 h2 h3
  · have hhalf : ((a % b : ℕ) : ℚ) / b < 1 / 2 := by
      rw [div_lt_iff hbQ]
      have : (2 * (a % b) : ℕ) < (b : ℕ) := h1
      have hc : 2 * ((a % b : ℕ) : ℚ) < (b : ℚ) := by exact_mod_cast this
      linarith
    rw [abs_le, hval]
    constructor <;> push_cast <;> linarith
  · have hhalf : 1 / 2 ≤ ((a % b : ℕ) : ℚ) / b := by
      rw [le_div_iff hbQ]
      have : (b : ℕ) < 2 * (a % b) := h2
      have hc : (b : ℚ) < 2 * ((a % b : ℕ) : ℚ) := by exact_mod_cast this
      linarith
    rw [abs_le, hval]
    constructor <;> push_cast <;> linarith
  · have heq : ((a % b : ℕ) : ℚ) / b = 1 / 2 := by
      rw [div_eq_div_iff (ne_of_gt hbQ) (by norm_num : (2 : ℚ) ≠ 0)]
      have : 2 * (a % b) = b := by omega
      have hc : 2 * ((a % b : ℕ) : ℚ) = (b : ℚ) := by exact_mod_cast this
      linarith
    rw [abs_le, hval]
    constructor <;> push_cast <;> linarith
  · have heq : ((a % b : ℕ) : ℚ) / b = 1 / 2 := by
      rw [div_eq_div_iff (ne_of_gt hbQ) (by norm_num : (2 : ℚ) ≠ 0)]
      have : 2 * (a % b) = b := by omega
      have hc : 2 * ((a % b : ℕ) : ℚ) = (b : ℚ) := by exact_mod_cast this
      linarith
    rw [abs_le, hval]
    constructor <;> push_cast <;> linarith

lemma roundAtScale_close (a b : Nat) (hb : 0 < b) (s : Int) :
    |(roundAtScale a b s : ℚ) - (a : ℚ) / b * (2 : ℚ) ^ s| ≤ 1 / 2 := by
  cases s with
  | ofNat n =>
    have h := roundHalfEvenNat_close (a * 2 ^ n) b hb
    have he : ((a * 2 ^ n : ℕ) : ℚ) / b = (a : ℚ) / b * (2 : ℚ) ^ (Int.ofNat n) := by
      rw [show (Int.ofNat n) = ((n : ℕ) : ℤ) from rfl, zpow_natCast]
      push_cast
      ring
    rw [show roundAtScale a b (Int.ofNat n) = roundHalfEvenNat (a * 2 ^ n) b from rfl,
      ← he]
    exact h
  | negSucc n =>
    have hb2 : 0 < b * 2 ^ (n + 1) := by positivity
    have h := roundHalfEvenNat_close a (b * 2 ^ (n + 1)) hb2
    have he : (a : ℚ) / ((b * 2 ^ (n + 1) : ℕ) : ℚ)
        = (a : ℚ) / b * (2 : ℚ) ^ (Int.negSucc n) := by
      rw [zpow_negSucc]
      push_cast
      rw [← div_eq_mul_inv, div_div]
    rw [show roundAtScale a b (Int.negSucc n) = roundHalfEvenNat a (b * 2 ^ (n + 1))
        from rfl, ← he]
    exact h

lemma epsVal : (2 : ℚ) ^ (-53 : ℤ) = 1 / 9007199254740992 := by
  rw [show (-53 : ℤ) = -((53 : ℕ) : ℤ) from rfl, zpow_neg, zpow_natCast]
  norm_num

lemma floatRoundFrac_err (a b : Nat) (ha : 1 ≤ a) (hb : 1 ≤ b) :
    |fracVal (floatRoundFrac a b) - (a : ℚ) / b|
      ≤ (a : ℚ) / b * (2 : ℚ) ^ (-53 : ℤ) := by
  have hclose := roundAtScale_close a b (by omega) (52 - fracLog2 a b)
  have hlog := fracLog2_le a b ha hb
  have h2 : (0 : ℚ) < (2 : ℚ) ^ (fracLog2 a b - 52) := by positivity
  obtain ⟨hlo, hup⟩ := abs_le.mp hclose
  have hup2 := mul_le_mul_of_nonneg_right hup (le_of_lt h2)
  have hlo2 := mul_le_mul_of_nonneg_right hlo (le_of_lt h2)
  rw [sub_mul] at hup2 hlo2
  have hid : (2 : ℚ) ^ ((52 : ℤ) - fracLog2 a b) * (2 : ℚ) ^ (fracLog2 a b - 52) = 1 := by
    rw [← zpow_add₀ (by norm_num : (2 : ℚ) ≠ 0)]
    norm_num
  rw [mul_assoc, hid, mul_one] at hup2 hlo2
  have hhalfc : 1 / 2 * (2 : ℚ) ^ (fracLog2 a b - 52)
      ≤ (a : ℚ) / b * (2 : ℚ) ^ (-53 : ℤ) := by
    have e1 : 1 / 2 * (2 : ℚ) ^ (fracLog2 a b - 52)
        = (2 : ℚ) ^ (fracLog2 a b) * (2 : ℚ) ^ (-53 : ℤ) := by
      rw [← zpow_add₀ (by norm_num : (2 : ℚ) ≠ 0)]
      rw [show fracLog2 a b - 52 = (fracLog2 a b + -53) + 1 from by ring]
      rw [zpow_add₀ (by norm_num : (2 : ℚ) ≠ 0) _ 1, zpow_one]
      ring
    rw [e1]
    exact mul_le_mul_of_nonneg_right hlog (by positivity)
  have hV : fracVal (floatRoundFrac a b)
      = ((roundAtScale a b (52 - fracLog2 a b) : ℕ) : ℚ)
          * (2 : ℚ) ^ (fracLog2 a b - 52) := rfl
  rw [abs_le, hV]
  constructor
  · linarith
  · linarith

lemma floatRoundFrac_pos (a b : Nat) (ha : 1 ≤ a) (hb : 1 ≤ b) :
    1 ≤ (floatRoundFrac a b).1 := by
  by_contra hcon
  have hm0 : (floatRoundFrac a b).1 = 0 := by omega
  have herr := floatRoundFrac_err a b ha hb
  have haQ : (0 : ℚ) < (a : ℚ) := by exact_mod_cast ha
  have hbQ : (0 : ℚ) < (b : ℚ) := by exact_mod_cast hb
  have hx : (0 : ℚ) < (a : ℚ) / b := div_pos haQ hbQ
  have hv0 : fracVal (floatRoundFrac a b) = 0 := by
    rw [fracVal, hm0]
    simp
  rw [hv0, zero_sub, abs_neg, abs_of_pos hx] at herr
  have hε1 : (2 : ℚ) ^ (-53 : ℤ) < 1 := by
    rw [epsVal]
    norm_num
  nlinarith

lemma mulPow2Frac_val (m k : Nat) (e : Int) :
    ((mulPow2Frac m e k).1 : ℚ) / ((mulPow2Frac m e k).2 : ℚ)
      = (m : ℚ) * k * (2 : ℚ) ^ e := by
  cases e with
  | ofNat n =>
    rw [show mulPow2Frac m (Int.ofNat n) k = (m * k * 2 ^ n, 1) from rfl]
    rw [show (Int.ofNat n) = ((n : ℕ) : ℤ) from rfl, zpow_natCast]
    push_cast
    norm_num
  | negSucc n =>
    rw [show mulPow2Frac m (Int.negSucc n) k = (m * k, 2 ^ (n + 1)) from rfl,
      zpow_negSucc]
    push_cast
    rw [div_eq_mul_inv]

lemma mulPow2Frac_pos (m : Nat) (e : Int) (k : Nat) (hm : 1 ≤ m) (hk : 1 ≤ k) :
    1 ≤ (mulPow2Frac m e k).1 ∧ 1 ≤ (mulPow2Frac m e k).2 := by
  cases e with
  | ofNat n =>
    refine ⟨?_, le_refl 1⟩
    show 1 ≤ m * k * 2 ^ n
    have h2 : 0 < 2 ^ n := Nat.two_pow_pos n
    have hmul := Nat.mul_le_mul (Nat.mul_le_mul hm hk) (by omega : 1 ≤ 2 ^ n)
    simpa using hmul
  | negSucc n =>
    constructor
    · show 1 ≤ m * k
      simpa using Nat.mul_le_mul hm hk
    · show 1 ≤ 2 ^ (n + 1)
      have h2 : 0 < 2 ^ (n + 1) := Nat.two_pow_pos (n + 1)
      omega

lemma floorDyadic_le (m : Nat) (e : Int) :
    ((floorDyadic m e : ℕ) : ℚ) ≤ (m : ℚ) * (2 : ℚ) ^ e ∧
    (m : ℚ) * (2 : ℚ) ^ e < ((floorDyadic m e : ℕ) : ℚ) + 1 := by
  cases e with
  | ofNat n =>
    have he : ((floorDyadic m (Int.ofNat n) : ℕ) : ℚ)
        = (m : ℚ) * (2 : ℚ) ^ (Int.ofNat n) := by
      rw [show floorDyadic m (Int.ofNat n) = m * 2 ^ n from rfl,
        show (Int.ofNat n) = ((n : ℕ) : ℤ) from rfl, zpow_natCast]
      push_cast
      ring
    rw [he]
    exact ⟨le_refl _, by linarith⟩
  | negSucc n =>
    have hd : (0 : ℚ) < (2 : ℚ) ^ (n + 1 : ℕ) := by positivity
    have hv : (m : ℚ) * (2 : ℚ) ^ (Int.negSucc n) = (m : ℚ) / (2 : ℚ) ^ (n + 1 : ℕ) := by
      rw [zpow_negSucc, div_eq_mul_inv]
    have hfd : floorDyadic m (Int.negSucc n) = m / 2 ^ (n + 1) := rfl
    constructor
    · rw [hv, hfd, le_div_iff hd]
      have hnat : m / 2 ^ (n + 1) * 2 ^ (n + 1) ≤ m := Nat.div_mul_le_self m (2 ^ (n + 1))
      exact_mod_cast hnat
    · rw [hv, hfd, div_lt_iff hd]
      have hnat : m < (m / 2 ^ (n + 1) + 1) * 2 ^ (n + 1) := by
        have h3 := Nat.div_add_mod m (2 ^ (n + 1))
        have h4 : m % 2 ^ (n + 1) < 2 ^ (n + 1) := Nat.mod_lt m (Nat.two_pow_pos (n + 1))
        have h5 : (m / 2 ^ (n + 1) + 1) * 2 ^ (n + 1)
            = 2 ^ (n + 1) * (m / 2 ^ (n + 1)) + 2 ^ (n + 1) := by ring
        omega
      exact_mod_cast hnat

lemma pipeline_near (p t : Nat) (hp : 1 ≤ p) (ht : 1 ≤ t) :
    |fracVal (jsPercentPipeline p t) - (p : ℚ) / t * 100|
      ≤ (p : ℚ) / t * 300 * (2 : ℚ) ^ (-53 : ℤ) := by
  have h1 := floatRoundFrac_err p t hp ht
  have hm1 := floatRoundFrac_pos p t hp ht
  obtain ⟨hf21, hf22⟩ :=
    mulPow2Frac_pos (floatRoundFrac p t).1 (floatRoundFrac p t).2 100 hm1 (by norm_num)
  have h2 := floatRoundFrac_err
    (mulPow2Frac (floatRoundFrac p t).1 (floatRoundFrac p t).2 100).1
    (mulPow2Frac (floatRoundFrac p t).1 (floatRoundFrac p t).2 100).2 hf21 hf22
  rw [mulPow2Frac_val] at h2
  push_cast at h2
  have hy : ((floatRoundFrac p t).1 : ℚ) * 100 * (2 : ℚ) ^ (floatRoundFrac p t).2
      = fracVal (floatRoundFrac p t) * 100 := by
    rw [fracVal]
    ring
  rw [hy] at h2
  have hJ : fracVal (jsPercentPipeline p t)
      = fracVal (floatRoundFrac
          (mulPow2Frac (floatRoundFrac p t).1 (floatRoundFrac p t).2 100).1
          (mulPow2Frac (floatRoundFrac p t).1 (floatRoundFrac p t).2 100).2) := rfl
  rw [hJ]
  have hpQ : (0 : ℚ) < (p : ℚ) := by exact_mod_cast hp
  have htQ : (0 : ℚ) < (t : ℚ) := by exact_mod_cast ht
  have hx0 : (0 : ℚ) < (p : ℚ) / t := div_pos hpQ htQ
  rw [epsVal] at h1 h2 ⊢
  obtain ⟨a1, b1⟩ := abs_le.mp h1
  obtain ⟨a2, b2⟩ := abs_le.mp h2
  rw [abs_le]
  constructor <;> nlinarith [hx0, a1, b1, a2, b2]

lemma percentOf_bounds (p t : Nat) (hp : 1 ≤ p) (hpt : p ≤ t) :
    percentOf p t ≤ 100 ∧ percentOf p t ≤ p * 100 / t + 1 ∧
    p * 100 / t ≤ percentOf p t + 1 := by
  have ht : 1 ≤ t := le_trans hp hpt
  have htQ : (0 : ℚ) < (t : ℚ) := by exact_mod_cast ht
  have hpQ : (0 : ℚ) < (p : ℚ) := by exact_mod_cast hp
  have hx0 : (0 : ℚ) < (p : ℚ) / t := div_pos hpQ htQ
  have hx1 : (p : ℚ) / t ≤ 1 := by
    rw [div_le_one htQ]
    exact_mod_cast hpt
  have hnear := pipeline_near p t hp ht
  rw [epsVal] at hnear
  obtain ⟨hnlo, hnup⟩ := abs_le.mp hnear
  obtain ⟨hflo, hfup⟩ := floorDyadic_le (jsPercentPipeline p t).1 (jsPercentPipeline p t).2
  have hVeq : ((jsPercentPipeline p t).1 : ℚ) * (2 : ℚ) ^ (jsPercentPipeline p t).2
      = fracVal (jsPercentPipeline p t) := rfl
  rw [hVeq] at hflo hfup
  have hpc : percentOf p t
      = floorDyadic (jsPercentPipeline p t).1 (jsPercentPipeline p t).2 := by
    rw [percentOf, if_neg (by omega : ¬(p = 0 ∨ t = 0))]
  have hn1 : ((p * 100 / t : ℕ) : ℚ) ≤ (p : ℚ) / t * 100 := by
    have hnat : p * 100 / t * t ≤ p * 100 := Nat.div_mul_le_self (p * 100) t
    rw [div_mul_eq_mul_div, le_div_iff htQ]
    exact_mod_cast hnat
  have hn2 : (p : ℚ) / t * 100 < ((p * 100 / t : ℕ) : ℚ) + 1 := by
    have hnat : p * 100 < (p * 100 / t + 1) * t := by
      have h3 := Nat.div_add_mod (p * 100) t
      have h4 : p * 100 % t < t := Nat.mod_lt (p * 100) (by omega)
      have h5 : (p * 100 / t + 1) * t = t * (p * 100 / t) + t := by ring
      omega
    rw [div_mul_eq_mul_div, div_lt_iff htQ]
    push_cast
    exact_mod_cast hnat
  have hq1 : ((percentOf p t : ℕ) : ℚ) < 101 := by
    rw [hpc]
    linarith
  have hq2 : ((percentOf p t : ℕ) : ℚ) < ((p * 100 / t : ℕ) : ℚ) + 2 := by
    rw [hpc]
    linarith
  have hq3 : ((p * 100 / t : ℕ) : ℚ) < ((percentOf p t : ℕ) : ℚ) + 2 := by
    rw [hpc]
    linarith
  refine ⟨?_, ?_, ?_⟩
  · have : percentOf p t < 101 := by exact_mod_cast hq1
    omega
  · have : percentOf p t < p * 100 / t + 2 := by exact_mod_cast hq2
    omega
  · have : p * 100 / t < percentOf p t + 2 := by exact_mod_cast hq3
    omega

/-- C2: a derivation error on one non-blank line is caught at the per-line
boundary: the batch still processes every line, every non-blank line's record
appears on the output sink in input order (none omitted), and the erroring
line's record is the error record. -/
theorem failure_isolation (env : CryptoEnv) (lines : List String)
    (line : String) (hmem : line ∈ lines) (hnb : trimLine line ≠ "")
    (e : DeriveError)
    (herr : deriveRippleAddress env (trimLine line) = Except.error e) :
    (deriveAddressesFromFile env lines).processed = lines.length ∧
    (deriveAddressesFromFile env lines).output = expectedOutput env lines ∧
    recordFor env (trimLine line)
      = trimLine line ++ "|" ++ errorMarker ++ "\n" ∧
    recordFor env (trimLine line) ∈ (deriveAddressesFromFile env lines).output := by
  rw [deriveAddressesFromFile_eq]
  refine ⟨rfl, rfl, ?_, ?_⟩
  · unfold recordFor
    rw [herr]
  · exact List.mem_map_of_mem _
      (List.mem_filter.mpr ⟨hmem, by simpa using hnb⟩)

/-- Witness for C2: a batch with the invalid mnemonic `"bad"` between two
valid ones still writes all three records, the middle one the error
record. -/
theorem failure_isolation_witness :
    (deriveAddressesFromFile testEnv ["good", "bad", "fine"]).processed = 3 ∧
    (deriveAddressesFromFile testEnv ["good", "bad", "fine"]).output
      = expectedOutput testEnv ["good", "bad", "fine"] ∧
    recordFor testEnv (trimLine "bad")
      = trimLine "bad" ++ "|" ++ errorMarker ++ "\n" ∧
    recordFor testEnv (trimLine "bad")
      ∈ (deriveAddressesFromFile testEnv ["good", "bad", "fine"]).output :=
  failure_isolation testEnv ["good", "bad", "fine"] "bad" (by decide)
    (by decide) DeriveError.invalidMnemonic rfl

/-- C5: the output holds exactly one record per non-blank input line, in the
same relative order, and the mnemonic field of each record is the
corresponding line after trimming. -/
theorem order_preservation (env : CryptoEnv) (lines : List String) :
    (deriveAddressesFromFile env lines).output = expectedOutput env lines ∧
    (deriveAddressesFromFile env lines).output.length
      = (nonBlankLines lines).length ∧
    List.Forall₂ (fun line record => ∃ tail, record = trimLine line ++ "|" ++ tail)
      (nonBlankLines lines) ((deriveAddressesFromFile env lines).output) := by
  rw [deriveAddressesFromFile_eq]
  refine ⟨rfl, by simp [expectedOutput], ?_⟩
  show List.Forall₂ _ (nonBlankLines lines) (expectedOutput env lines)
  rw [expectedOutput, List.forall₂_map_right_iff]
  exact List.forall₂_same.mpr fun line _ => recordFor_shape env (trimLine line)

/-- C7: a line that is blank after trimming adds no output record, leaves the
state independent of the derivation engine (no derivation is invoked), still
increments the processed counter, and still counts toward the counting pass's
total. -/
theorem blank_line_skip (env env2 : CryptoEnv) (total : Nat) (st : RunState)
    (line : String) (rest : List String) (h : trimLine line = "") :
    (processLine env total st line).output = st.output ∧
    processLine env total st line = processLine env2 total st line ∧
    (processLine env total st line).processed = st.processed + 1 ∧
    countLines (line :: rest) = countLines rest + 1 := by
  rw [processLine_blank env total st line h, processLine_blank env2 total st line h]
  exact ⟨rfl, rfl, rfl, rfl⟩

/-- Witness for C7 at a whitespace-only line between two concrete
environments. -/
theorem blank_line_skip_witness :
    (processLine testEnv 1 initialState "  ").output = initialState.output ∧
    processLine testEnv 1 initialState "  "
      = processLine rejectAllEnv 1 initialState "  " ∧
    (processLine testEnv 1 initialState "  ").processed
      = initialState.processed + 1 ∧
    countLines ["  ", "x"] = countLines ["x"] + 1 :=
  blank_line_skip testEnv rejectAllEnv 1 initialState "  " ["x"] (by decide)

set_option maxRecDepth 40000 in
/-- C8 counterexample: on a 100-line input the program reports 28 percent
after the 29th line, while the claim's formula
`floor(processed / total * 100)` gives 29: in binary64,
`(29 / 100) * 100` evaluates to just below 29 and `Math.floor` truncates
it. -/
theorem percent_floor_counterexample :
    percentOf 29 100 = 28 ∧ 29 * 100 / 100 = 29 ∧
    percentOf 29 100 ≠ 29 * 100 / 100 ∧
    ((deriveAddressesFromFile testEnv (List.replicate 100 "good")).progress).get? 28
      = some (28, 29, 100) := by
  refine ⟨by decide, by decide, by decide, by decide⟩

/-- C8 (amended): the counting pass counts every line (blank ones included)
and only counts — its result depends only on how many lines there are; after
the i-th line of the processing pass the reported progress is
`(percent, processed, total)` with `processed = i + 1`, where `percent` is
`Math.floor((processed / total) * 100)` computed in IEEE-754 binary64; that
value stays within one of the exact `floor(processed * 100 / total)`. -/
theorem two_pass_progress (env : CryptoEnv) (lines : List String) :
    countLines lines = lines.length ∧
    (∀ other : List String, lines.length = other.length →
      countLines lines = countLines other) ∧
    (∀ p t : Nat, 1 ≤ p → p ≤ t →
      percentOf p t ≤ p * 100 / t + 1 ∧ p * 100 / t ≤ percentOf p t + 1) ∧
    ∀ i, i < lines.length →
      ((deriveAddressesFromFile env lines).progress).get? i
        = some (percentOf (i + 1) (countLines lines), i + 1, countLines lines) := by
  refine ⟨countLines_length lines, ?_, ?_, ?_⟩
  · intro other hlen
    rw [countLines_length, countLines_length, hlen]
  · intro p t hp hpt
    exact (percentOf_bounds p t hp hpt).2
  · intro i hi
    rw [deriveAddressesFromFile_eq]
    have := expectedProgress_get (countLines lines) lines 0 i hi
    simpa using this

/-- C10: every computed progress report has a strictly positive total, a
processed count between 1 and the total, and a percentage of at most 100. -/
theorem progress_in_range (env : CryptoEnv) (lines : List String)
    (entry : Nat × Nat × Nat)
    (h : entry ∈ (deriveAddressesFromFile env lines).progress) :
    0 < entry.2.2 ∧ 1 ≤ entry.2.1 ∧ entry.2.1 ≤ entry.2.2 ∧ entry.1 ≤ 100 := by
  rw [deriveAddressesFromFile_eq] at h
  obtain ⟨j, hj, hentry⟩ := mem_expectedProgress (countLines lines) lines 0 entry h
  subst hentry
  refine ⟨?_, ?_, ?_, ?_⟩
  · show 0 < countLines lines
    rw [countLines_length]
    omega
  · show 1 ≤ 0 + j + 1
    omega
  · show 0 + j + 1 ≤ countLines lines
    rw [countLines_length]
    omega
  · show percentOf (0 + j + 1) (countLines lines) ≤ 100
    rw [countLines_length]
    exact (percentOf_bounds (0 + j + 1) lines.length (by omega) (by omega)).1

/-- Witness for C10 at a one-line batch: the only report is
`(100, 1, 1)`. -/
theorem progress_in_range_witness :
    0 < (100, 1, 1).2.2 ∧ 1 ≤ (100, 1, 1).2.1 ∧
    (100, 1, 1).2.1 ≤ (100, 1, 1).2.2 ∧ (100, 1, 1).1 ≤ 100 :=
  progress_in_range testEnv ["good"] (100, 1, 1) (by decide)

/-- C6 counterexample: the line `" bad "` is non-blank and carries
surrounding whitespace; the record the loop writes for it is built from the
trimmed text `"bad"`, not from the original line text `" bad "` the claim
names. -/
theorem record_uses_trimmed_counterexample :
    (deriveAddressesFromFile testEnv [" bad "]).output
      = ["bad|Error deriving address\n"] ∧
    (deriveAddressesFromFile testEnv [" bad "]).output
      ≠ [" bad " ++ "|" ++ errorMarker ++ "\n"] := by
  constructor
  · decide
  · decide

/-- C6 amended: for every non-blank input line, the record written to the
output sink is the trimmed line text, then `|`, then the derived address on
success or the literal sentinel `Error deriving address` on failure, in both
cases terminated by a newline. -/
theorem record_format (env : CryptoEnv) (line : String)
    (h : trimLine line ≠ "") :
    ((∃ a, deriveRippleAddress env (trimLine line) = Except.ok a ∧
        recordFor env (trimLine line) = trimLine line ++ "|" ++ a ++ "\n") ∨
      (∃ e, deriveRippleAddress env (trimLine line) = Except.error e ∧
        recordFor env (trimLine line)
          = trimLine line ++ "|" ++ errorMarker ++ "\n")) ∧
    ∀ lines, line ∈ lines →
      recordFor env (trimLine line) ∈ (deriveAddressesFromFile env lines).output := by
  constructor
  · cases hd : deriveRippleAddress env (trimLine line) with
    | ok address => exact Or.inl ⟨address, rfl, by rw [recordFor, hd]⟩
    | error e => exact Or.inr ⟨e, rfl, by rw [recordFor, hd]⟩
  · intro lines hmem
    rw [deriveAddressesFromFile_eq]
    exact List.mem_map_of_mem _
      (List.mem_filter.mpr ⟨hmem, by simpa using h⟩)

/-- Witness for C6 (amended) at the line `" good "`: its record appears on
the output sink of a run over that line. -/
theorem record_format_witness :
    recordFor testEnv (trimLine " good ")
      ∈ (deriveAddressesFromFile testEnv [" good "]).output :=
  (record_format testEnv " good " (by decide)).2 [" good "] (by decide)

/-! ## The batch runner with a fallible output sink

The `writeStream.write` calls of src/xrp.js lines 62-67 and 70-75 each
settle a promise: they resolve on success and reject when the write reports
an error.  A rejected success-record write is raised by `await` inside the
`try`, so the same `catch` that handles derivation errors handles it and
writes the error record; a rejected error-record write is raised outside
any handler, so it escapes the loop and processing stops.  The sink is
modelled as a predicate on write attempts: `sink n` tells whether the n-th
`writeStream.write` of the run succeeds. -/

/-- The output-sink state under fallible writes: write attempts made so far
and the records actually on the sink. -/
structure SinkState where
  attempts : Nat
  written : List String
deriving DecidableEq, Repr

/-- One `writeStream.write` call: the attempt is counted, the record lands on
the sink only when the attempt succeeds. -/
def tryWrite (sink : Nat → Bool) (st : SinkState) (record : String) :
    Bool × SinkState :=
  if sink st.attempts then
    (true, { attempts := st.attempts + 1, written := st.written ++ [record] })
  else
    (false, { attempts := st.attempts + 1, written := st.written })

/-- One loop iteration of src/xrp.js lines 56-84 with fallible writes: blank
lines skip, a derivation error or a rejected success-record write reaches the
`catch`, which writes the error record; a rejected error-record write aborts
the loop (`Except.error` carries the state at the abort). -/
def processLineFallible (env : CryptoEnv) (sink : Nat → Bool)
    (st : SinkState) (line : String) : Except SinkState SinkState :=
  let mnemonic := trimLine line
  if mnemonic = "" then Except.ok st
  else
    match deriveRippleAddress env mnemonic with
    | Except.ok address =>
      match tryWrite sink st (mnemonic ++ "|" ++ address ++ "\n") with
      | (true, st1) => Except.ok st1
      | (false, st1) =>
        match tryWrite sink st1 (mnemonic ++ "|" ++ errorMarker ++ "\n") with
        | (true, st2) => Except.ok st2
        | (false, st2) => Except.error st2
    | Except.error _ =>
      match tryWrite sink st (mnemonic ++ "|" ++ errorMarker ++ "\n") with
      | (true, st2) => Except.ok st2
      | (false, st2) => Except.error st2

/-- The processing pass with fallible writes: an abort stops the loop; lines
after it are never reached. -/
def processLinesFallible (env : CryptoEnv) (sink : Nat → Bool)
    (st : SinkState) : List String → Except SinkState SinkState
  | [] => Except.ok st
  | line :: rest =>
    match processLineFallible env sink st line with
    | Except.ok st1 => processLinesFallible env sink st1 rest
    | Except.error st1 => Except.error st1

/-- C9 counterexample: with the sink failing exactly on the run's first write
attempt and two valid mnemonics, the failed write of the first line's success
record is recovered at the per-line boundary and converted into a per-line
error record, and the run completes instead of terminating. -/
theorem write_failure_counterexample :
    processLinesFallible testEnv (fun n => n != 0)
        { attempts := 0, written := [] } ["good", "fine"]
      = Except.ok
          { attempts := 3,
            written := ["good|Error deriving address\n", "fine|r4\n"] } := by
  rfl

/-- C9 amended: when a write to the output sink fails, what happens depends
on which write it was.  A failed write of the success record is caught at the
per-line boundary: the catch handler writes the error record for that line,
and the run continues when that write succeeds.  Only a failed write of the
error record escapes the per-line handler: the line's record is omitted, the
loop aborts, and the remaining lines are never processed. -/
theorem write_failure_handling (env : CryptoEnv) (sink : Nat → Bool)
    (st : SinkState) (line : String) (h : trimLine line ≠ "")
    (hfail : sink st.attempts = false) :
    (∀ a, deriveRippleAddress env (trimLine line) = Except.ok a →
      (sink (st.attempts + 1) = true →
        processLineFallible env sink st line
          = Except.ok
              { attempts := st.attempts + 2,
                written := st.written
                  ++ [trimLine line ++ "|" ++ errorMarker ++ "\n"] }) ∧
      (sink (st.attempts + 1) = false →
        processLineFallible env sink st line
          = Except.error
              { attempts := st.attempts + 2, written := st.written })) ∧
    (∀ e, deriveRippleAddress env (trimLine line) = Except.error e →
      processLineFallible env sink st line
        = Except.error { attempts := st.attempts + 1, written := st.written }) ∧
    ∀ rest stAbort,
      processLineFallible env sink st line = Except.error stAbort →
      processLinesFallible env sink st (line :: rest)
        = Except.error stAbort := by
  refine ⟨?_, ?_, ?_⟩
  · intro a ha
    constructor
    · intro hok2
      simp [processLineFallible, h, ha, tryWrite, hfail, hok2]
    · intro hfail2
      simp [processLineFallible, h, ha, tryWrite, hfail, hfail2]
  · intro e he
    simp [processLineFallible, h, he, tryWrite, hfail]
  · intro rest stAbort habort
    rw [processLinesFallible, habort]

/-- Witness for C9 (amended): against a sink rejecting every write, the line
`"good"` (whose derivation succeeds) aborts the run on its error-record
write, with nothing written, and the following line is never processed. -/
theorem write_failure_handling_witness :
    processLineFallible testEnv (fun _ => false)
        { attempts := 0, written := [] } "good"
      = Except.error { attempts := 2, written := [] } ∧
    processLinesFallible testEnv (fun _ => false)
        { attempts := 0, written := [] } ["good", "fine"]
      = Except.error { attempts := 2, written := [] } := by
  have h := write_failure_handling testEnv (fun _ => false)
    { attempts := 0, written := [] } "good" (by decide) rfl
  have h1 := (h.1 "r4" rfl).2 rfl
  exact ⟨h1, h.2.2 ["fine"] { attempts := 2, written := [] } h1⟩

end XRPWallet
